import Mathlib

/-!
Verification of the `AtomicBitSet` in `src/atomic_bit_set.rs` of the
`terrarier2111/tecs` repository: a lock-free, sparse, unbounded bit set with
geometrically sized, lazily allocated buckets.

The embedding fixes the pointer width to 64 bits (`usize::BITS` on the common
64-bit target).  Machine words are `Nat` values below `2 ^ 64`; a bucket's
backing block is modelled as a total function from word offsets to word
values (the operations only ever touch offsets below the bucket's word
count, which is proved separately), and the slot array as a function from
bucket numbers to `Option` blocks, `none` standing for the null pointer.
The sequential semantics of `add` / `remove` / `contains` / `clear` is given
by explicit state passing; a separate fine-grained interleaving semantics of
concurrent `add`s (one atomic step per shared-memory access, with allocation
identities made explicit) models the compare-and-swap publication race.
-/

/-- `usize::BITS` on a 64-bit target (`PTR_WIDTH` in the source). -/
def PTR_WIDTH : Nat := 64

/-- `BUCKET_COUNT` in the source: one slot per possible bucket number. -/
def BUCKET_COUNT : Nat := PTR_WIDTH

/-- Binary length of `n` (the position of the highest set bit, plus one),
computed with an explicit fuel bound so that it is structurally recursive:
exact for every `n < 2 ^ fuel`. -/
def bitLen (fuel n : Nat) : Nat :=
  match fuel with
  | 0 => 0
  | fuel + 1 => if n = 0 then 0 else bitLen fuel (n / 2) + 1

/-- `usize::leading_zeros` for a value `n < 2 ^ 64`: the number of zero bits
above the highest set bit. -/
def leading_zeros (n : Nat) : Nat := PTR_WIDTH - bitLen PTR_WIDTH n

/-- The pure address-translation helper `index` in the source: maps a word
index `val` to `(bucket, bucket_size, index)`.  Faithful to the Rust for every
`val` with `val + 1 < 2 ^ 64` (which holds at every call site, since callers
pass `value / PTR_WIDTH`). -/
def index (val : Nat) : Nat × Nat × Nat :=
  let bucket := PTR_WIDTH - leading_zeros (val + 1) - 1
  let bucket_size := 1 <<< bucket
  let idx := val - (bucket_size - 1)
  (bucket, bucket_size, idx)

/-- One iteration of the loop in `most_sig_set_bit`: replace the running
result by `some i` when bit `i` of `val` is set. -/
def msbF (val : Nat) (ret : Option Nat) (i : Nat) : Option Nat :=
  if val &&& (1 <<< i) != 0 then some i else ret

/-- The loop-based `most_sig_set_bit` helper in the source, written as a fold
over the 64 candidate bit positions: the final value names the most
significant set bit of `val`, or `none` when `val = 0`. -/
def most_sig_set_bit (val : Nat) : Option Nat :=
  (List.range PTR_WIDTH).foldl (msbF val) none

/-- Bitwise NOT on a 64-bit machine word (`!` on `usize` in Rust). -/
def not64 (n : Nat) : Nat := (2 ^ PTR_WIDTH - 1) ^^^ n

/-- Pointwise update of a function out of `Nat` (the shallow model of an
in-place store to one cell of a block, or to one slot of the slot array). -/
def upd {α : Type} (f : Nat → α) (i : Nat) (v : α) : Nat → α :=
  fun j => if j = i then v else f j

/-- The sequential state of an `AtomicBitSet`: slot `b` of the bucket array
is `none` when the `AtomicPtr` is null and `some w` when it points at an
allocated block whose word at offset `j` is `w j`. -/
structure AtomicBitSet where
  buckets : Nat → Option (Nat → Nat)

/-- `AtomicBitSet::new`: every slot null. -/
def AtomicBitSet.new : AtomicBitSet := ⟨fun _ => none⟩

/-- `AtomicBitSet::add` (sequential semantics): translate the address,
lazily allocate a zeroed block when the slot is null, atomically OR the
addressed bit in, and return whether that bit was set in the previous word
value. -/
def AtomicBitSet.add (s : AtomicBitSet) (val : Nat) : Bool × AtomicBitSet :=
  let t := index (val / PTR_WIDTH)
  let bucket := t.1
  let idx := t.2.2
  let sub_index := val % PTR_WIDTH
  let storage_bucket : Nat → Nat :=
    match s.buckets bucket with
    | none => fun _ => 0
    | some w => w
  let prev := storage_bucket idx
  let storage' := upd storage_bucket idx (prev ||| (1 <<< sub_index))
  (prev &&& (1 <<< sub_index) != 0,
    ⟨upd s.buckets bucket (some storage')⟩)

/-- `AtomicBitSet::remove` (sequential semantics): if the slot is null return
`false` without allocating; otherwise atomically AND the word with the bit's
complement and return whether the bit was set beforehand. -/
def AtomicBitSet.remove (s : AtomicBitSet) (val : Nat) : Bool × AtomicBitSet :=
  let t := index (val / PTR_WIDTH)
  let bucket := t.1
  let idx := t.2.2
  let sub_index := val % PTR_WIDTH
  match s.buckets bucket with
  | none => (false, s)
  | some w =>
    let cell_value := w idx
    let w' := upd w idx (cell_value &&& not64 (1 <<< sub_index))
    (cell_value &&& (1 <<< sub_index) != 0,
      ⟨upd s.buckets bucket (some w')⟩)

/-- `AtomicBitSet::contains`: if the slot is null return `false`; otherwise
load the word and test the bit. -/
def AtomicBitSet.contains (s : AtomicBitSet) (val : Nat) : Bool :=
  let t := index (val / PTR_WIDTH)
  let bucket := t.1
  let idx := t.2.2
  let sub_index := val % PTR_WIDTH
  match s.buckets bucket with
  | none => false
  | some w => w idx &&& (1 <<< sub_index) != 0

/-- The loop body of `AtomicBitSet::clear`: walk the slots from `i` upward
with `fuel` iterations left, stopping (`break`) at the first null slot,
deallocating and nulling every slot before it. -/
def clearFrom (b : Nat → Option (Nat → Nat)) (i fuel : Nat) :
    Nat → Option (Nat → Nat) :=
  match fuel with
  | 0 => b
  | fuel + 1 =>
    match b i with
    | none => b
    | some _ => clearFrom (upd b i none) (i + 1) fuel

/-- `AtomicBitSet::clear`: iterate over all `BUCKET_COUNT` slots, breaking at
the first null one. -/
def AtomicBitSet.clear (s : AtomicBitSet) : AtomicBitSet :=
  ⟨clearFrom s.buckets 0 BUCKET_COUNT⟩

/-- `AtomicBitSet::add` with the allocator's outcome made explicit.
`allocOk = false` means `alloc_zeroed` returns null on this call, upon which
the source calls `abort()` — modelled as the result `none`, produced before
any slot is published and before any word is mutated.  `allocOk = true`
means the allocation (if one is needed at all) succeeds, and the operation
behaves exactly like `AtomicBitSet.add`. -/
def AtomicBitSet.addAlloc (s : AtomicBitSet) (val : Nat) (allocOk : Bool) :
    Option (Bool × AtomicBitSet) :=
  let t := index (val / PTR_WIDTH)
  let bucket := t.1
  let idx := t.2.2
  let sub_index := val % PTR_WIDTH
  match s.buckets bucket with
  | none =>
    if allocOk then
      let storage' := upd (fun _ => 0) idx (0 ||| (1 <<< sub_index))
      some (0 &&& (1 <<< sub_index) != 0,
        ⟨upd s.buckets bucket (some storage')⟩)
    else
      none
  | some w =>
    let prev := w idx
    let storage' := upd w idx (prev ||| (1 <<< sub_index))
    some (prev &&& (1 <<< sub_index) != 0,
      ⟨upd s.buckets bucket (some storage')⟩)

/-- Fold a list of insertions over a set (used to state the `0..100_000`
bulk-insertion property). -/
def insertAll (l : List Nat) (s : AtomicBitSet) : AtomicBitSet :=
  l.foldl (fun s v => (s.add v).2) s

/-! ## Arithmetic facts about the address translation -/

lemma size_div2_succ (n : Nat) (h : n ≠ 0) : Nat.size n = Nat.size (n / 2) + 1 := by
  apply le_antisymm
  · rw [Nat.size_le]
    have h1 := Nat.lt_size_self (n / 2)
    have h2 : (2 : Nat) ^ (Nat.size (n / 2) + 1) = 2 * 2 ^ Nat.size (n / 2) := by
      ring
    omega
  · rw [Nat.succ_le, Nat.lt_size]
    rcases Nat.eq_zero_or_pos (n / 2) with h0 | h0
    · rw [h0]
      simpa using Nat.one_le_iff_ne_zero.mpr h
    · have hs : 0 < Nat.size (n / 2) := Nat.size_pos.mpr h0
      have h2 : 2 ^ (Nat.size (n / 2) - 1) ≤ n / 2 := by
        rw [← Nat.lt_size]
        omega
      have h3 : (2 : Nat) ^ Nat.size (n / 2) =
          2 * 2 ^ (Nat.size (n / 2) - 1) := by
        conv_lhs => rw [show Nat.size (n / 2) = (Nat.size (n / 2) - 1) + 1 by omega]
        ring
      omega

/-- The fuelled binary length agrees with Mathlib's `Nat.size` below the
fuel's range. -/
lemma bitLen_eq_size (fuel : Nat) : ∀ n, n < 2 ^ fuel → bitLen fuel n = Nat.size n := by
  induction fuel with
  | zero =>
    intro n h
    have h0 : n = 0 := by simpa using h
    subst h0
    simp [bitLen]
  | succ fuel ih =>
    intro n h
    by_cases h0 : n = 0
    · subst h0
      simp [bitLen]
    · have hdiv : n / 2 < 2 ^ fuel := by
        have h2 : (2 : Nat) ^ (fuel + 1) = 2 * 2 ^ fuel := by ring
        omega
      rw [bitLen, if_neg h0, ih (n / 2) hdiv, ← size_div2_succ n h0]

/-- On machine-word inputs, `leading_zeros` is `PTR_WIDTH` minus the binary
length, exactly as `usize::leading_zeros`. -/
lemma leading_zeros_eq (n : Nat) (h : n < 2 ^ PTR_WIDTH) :
    leading_zeros n = PTR_WIDTH - Nat.size n := by
  rw [leading_zeros, bitLen_eq_size PTR_WIDTH n h]

lemma size_eq_log2_succ (n : Nat) (h : n ≠ 0) : Nat.size n = Nat.log2 n + 1 := by
  apply le_antisymm
  · exact Nat.size_le.mpr ((Nat.log2_lt h).mp (Nat.lt_succ_self _))
  · exact Nat.succ_le.mpr (Nat.lt_size.mpr (Nat.log2_self_le h))

/-- Closed form of `index`, valid whenever `val + 1` fits in a machine word:
the bucket number is the floor base-2 logarithm of `val + 1`. -/
lemma index_eq (k : Nat) (h : k + 1 < 2 ^ PTR_WIDTH) :
    index k = (Nat.log2 (k + 1), 2 ^ Nat.log2 (k + 1),
      k - (2 ^ Nat.log2 (k + 1) - 1)) := by
  have hsize : Nat.size (k + 1) = Nat.log2 (k + 1) + 1 :=
    size_eq_log2_succ _ (Nat.succ_ne_zero k)
  have hs64 : Nat.size (k + 1) ≤ PTR_WIDTH := Nat.size_le.mpr h
  have hb : PTR_WIDTH - leading_zeros (k + 1) - 1 = Nat.log2 (k + 1) := by
    rw [leading_zeros_eq _ h, Nat.sub_sub_self hs64, hsize]
    omega
  simp only [index, hb, Nat.shiftLeft_eq, one_mul]

lemma two_pow_log2_sub_one_le (k : Nat) : 2 ^ Nat.log2 (k + 1) - 1 ≤ k := by
  have h := Nat.log2_self_le (n := k + 1) (by omega)
  omega

lemma lt_two_pow_log2_succ (k : Nat) : k + 1 < 2 ^ (Nat.log2 (k + 1) + 1) :=
  (Nat.log2_lt (by omega)).mp (Nat.lt_succ_self _)

lemma index_fst (k : Nat) (h : k + 1 < 2 ^ PTR_WIDTH) :
    (index k).1 = Nat.log2 (k + 1) := by rw [index_eq k h]

lemma index_snd_snd (k : Nat) (h : k + 1 < 2 ^ PTR_WIDTH) :
    (index k).2.2 = k - (2 ^ Nat.log2 (k + 1) - 1) := by rw [index_eq k h]

/-- The translated bucket number, bucket size and offset are all in bounds. -/
lemma index_bounds (k : Nat) (h : k + 1 < 2 ^ PTR_WIDTH) :
    (index k).1 < BUCKET_COUNT ∧ (index k).2.1 = 2 ^ (index k).1 ∧
      (index k).2.2 < 2 ^ (index k).1 := by
  rw [index_eq k h]
  refine ⟨(Nat.log2_lt (Nat.succ_ne_zero k)).mpr h, rfl, ?_⟩
  show k - (2 ^ Nat.log2 (k + 1) - 1) < 2 ^ Nat.log2 (k + 1)
  have h1 := two_pow_log2_sub_one_le k
  have h2 := lt_two_pow_log2_succ k
  have h3 : 2 ^ (Nat.log2 (k + 1) + 1) = 2 * 2 ^ Nat.log2 (k + 1) := by ring
  omega

/-- The word index `k` is recoverable from the bucket number and offset:
the translation is injective. -/
lemma index_recover (k : Nat) (h : k + 1 < 2 ^ PTR_WIDTH) :
    (index k).2.2 + (2 ^ (index k).1 - 1) = k := by
  rw [index_eq k h]
  show k - (2 ^ Nat.log2 (k + 1) - 1) + (2 ^ Nat.log2 (k + 1) - 1) = k
  have h1 := two_pow_log2_sub_one_le k
  omega

lemma and_one_shift (n i : Nat) : (n &&& (1 <<< i) != 0) = n.testBit i := by
  rw [Nat.shiftLeft_eq, one_mul, Nat.and_two_pow]
  cases h : n.testBit i <;> simp

lemma testBit_true_of_ge (v m : Nat) (h1 : 2 ^ m ≤ v) (h2 : v < 2 ^ (m + 1)) :
    v.testBit m = true := by
  rw [Nat.testBit_to_div_mod]
  have hd : v / 2 ^ m = 1 := by
    apply Nat.div_eq_of_lt_le
    · omega
    · have h3 : (1 + 1) * 2 ^ m = 2 ^ (m + 1) := by ring
      omega
  simp [hd]

/-- The linear-scan loop, run over bit positions `0..m`, finds the most
significant set bit of any positive `val < 2 ^ m`. -/
lemma msb_aux (m : Nat) : ∀ (val : Nat) (acc : Option Nat), 0 < val →
    val < 2 ^ m → (List.range m).foldl (msbF val) acc = some (Nat.log2 val) := by
  induction m with
  | zero => intro val acc h1 h2; omega
  | succ m ih =>
    intro val acc h1 h2
    rw [List.range_succ, List.foldl_append]
    simp only [List.foldl_cons, List.foldl_nil, msbF, and_one_shift]
    by_cases hbit : val.testBit m
    · rw [hbit]
      have hge : 2 ^ m ≤ val := by
        by_contra hlt
        rw [Nat.testBit_eq_false_of_lt (by omega)] at hbit
        exact Bool.false_ne_true hbit
      have hlog : Nat.log2 val = m := by
        have hle := (Nat.le_log2 (by omega)).mpr hge
        have hlt := (Nat.log2_lt (by omega)).mpr h2
        omega
      simp [hlog]
    · rw [Bool.not_eq_true] at hbit
      rw [hbit]
      simp only [Bool.false_eq_true, if_false]
      have hlt : val < 2 ^ m := by
        by_contra hge
        have := testBit_true_of_ge val m (by omega) h2
        rw [hbit] at this
        exact Bool.false_ne_true this
      exact ih val acc h1 hlt

lemma msb_eq_log2 (val : Nat) (h1 : 0 < val) (h2 : val < 2 ^ PTR_WIDTH) :
    most_sig_set_bit val = some (Nat.log2 val) :=
  msb_aux PTR_WIDTH val none h1 h2

/-! ## Sequential membership lemmas -/

/-- The bucket number addressed by value `v`. -/
def bkt (v : Nat) : Nat := (index (v / PTR_WIDTH)).1

/-- The word offset within the bucket addressed by value `v`. -/
def off (v : Nat) : Nat := (index (v / PTR_WIDTH)).2.2

/-- The bit position within the word addressed by value `v`. -/
def sub (v : Nat) : Nat := v % PTR_WIDTH

/-- The block a reader or writer of bucket `b` works on: the published block
when the slot is non-null, the fresh zeroed block otherwise. -/
def getStorage (s : AtomicBitSet) (b : Nat) : Nat → Nat :=
  match s.buckets b with
  | none => fun _ => 0
  | some w => w

lemma upd_same {α : Type} (f : Nat → α) (i : Nat) (v : α) : upd f i v i = v := by
  simp [upd]

lemma upd_ne {α : Type} (f : Nat → α) (i : Nat) (v : α) (j : Nat) (h : j ≠ i) :
    upd f i v j = f j := by
  simp [upd, h]

lemma contains_eq (s : AtomicBitSet) (v : Nat) :
    s.contains v = (getStorage s (bkt v) (off v)).testBit (sub v) := by
  unfold AtomicBitSet.contains getStorage bkt off sub
  cases h : s.buckets (index (v / PTR_WIDTH)).1 <;> simp [h, and_one_shift]

lemma add_eq (s : AtomicBitSet) (v : Nat) :
    s.add v = ((getStorage s (bkt v) (off v)).testBit (sub v),
      ⟨upd s.buckets (bkt v) (some (upd (getStorage s (bkt v)) (off v)
        (getStorage s (bkt v) (off v) ||| 1 <<< sub v)))⟩) := by
  unfold AtomicBitSet.add getStorage bkt off sub
  cases h : s.buckets (index (v / PTR_WIDTH)).1 <;> simp [h, and_one_shift]

lemma getStorage_upd_self (s : AtomicBitSet) (b : Nat) (W : Nat → Nat) :
    getStorage ⟨upd s.buckets b (some W)⟩ b = W := by
  simp [getStorage, upd]

lemma getStorage_upd_of_ne (s : AtomicBitSet) (b : Nat) (X : Option (Nat → Nat))
    (b' : Nat) (h : b' ≠ b) : getStorage ⟨upd s.buckets b X⟩ b' = getStorage s b' := by
  simp [getStorage, upd, h]

lemma shift_testBit_self (i : Nat) : ((1 <<< i : Nat).testBit i) = true := by
  rw [Nat.shiftLeft_eq, one_mul]
  exact Nat.testBit_two_pow_self

lemma add_fst (s : AtomicBitSet) (v : Nat) : (s.add v).1 = s.contains v := by
  rw [add_eq, contains_eq]

lemma contains_add_self (s : AtomicBitSet) (v : Nat) :
    (s.add v).2.contains v = true := by
  rw [add_eq, contains_eq]
  simp only [getStorage_upd_self, upd_same, Nat.testBit_or, shift_testBit_self,
    Bool.or_true]

lemma contains_add_mono (s : AtomicBitSet) (v w : Nat)
    (h : s.contains w = true) : (s.add v).2.contains w = true := by
  rw [contains_eq] at h
  rw [add_eq, contains_eq]
  by_cases hb : bkt w = bkt v
  · rw [hb, getStorage_upd_self]
    rw [hb] at h
    by_cases hi : off w = off v
    · rw [hi, upd_same, Nat.testBit_or]
      rw [hi] at h
      rw [h, Bool.true_or]
    · rw [upd_ne _ _ _ _ hi]
      exact h
  · rw [getStorage_upd_of_ne _ _ _ _ hb]
    exact h

lemma getStorage_none (s : AtomicBitSet) (b : Nat) (h : s.buckets b = none) :
    getStorage s b = fun _ => 0 := by
  simp [getStorage, h]

lemma getStorage_some (s : AtomicBitSet) (b : Nat) (w : Nat → Nat)
    (h : s.buckets b = some w) : getStorage s b = w := by
  simp [getStorage, h]

lemma shift_testBit_ne (i j : Nat) (h : i ≠ j) :
    ((1 <<< i : Nat).testBit j) = false := by
  rw [Nat.shiftLeft_eq, one_mul]
  exact Nat.testBit_two_pow_of_ne h

lemma remove_eq_none (s : AtomicBitSet) (v : Nat) (h : s.buckets (bkt v) = none) :
    s.remove v = (false, s) := by
  unfold bkt at h
  simp only [AtomicBitSet.remove, h]

lemma remove_eq_some (s : AtomicBitSet) (v : Nat) (w : Nat → Nat)
    (h : s.buckets (bkt v) = some w) :
    s.remove v = ((w (off v)).testBit (sub v),
      ⟨upd s.buckets (bkt v) (some (upd w (off v)
        (w (off v) &&& not64 (1 <<< sub v))))⟩) := by
  unfold bkt at h
  simp only [AtomicBitSet.remove, h, and_one_shift]
  unfold bkt off sub
  rfl

lemma remove_fst (s : AtomicBitSet) (v : Nat) : (s.remove v).1 = s.contains v := by
  cases h : s.buckets (bkt v) with
  | none =>
    rw [remove_eq_none s v h, contains_eq, getStorage_none s _ h]
    simp [Nat.zero_testBit]
  | some w =>
    rw [remove_eq_some s v w h, contains_eq, getStorage_some s _ _ h]

lemma testBit_not64_shift_self (i : Nat) (h : i < PTR_WIDTH) :
    (not64 (1 <<< i)).testBit i = false := by
  unfold not64
  rw [Nat.testBit_xor, Nat.shiftLeft_eq, one_mul, Nat.testBit_two_pow_sub_one,
    Nat.testBit_two_pow_self]
  simp [h]

lemma sub_lt_width (v : Nat) : sub v < PTR_WIDTH := by
  unfold sub PTR_WIDTH
  omega

lemma contains_remove_self (s : AtomicBitSet) (v : Nat) :
    (s.remove v).2.contains v = false := by
  cases h : s.buckets (bkt v) with
  | none =>
    rw [remove_eq_none s v h, contains_eq, getStorage_none s _ h]
    simp [Nat.zero_testBit]
  | some w =>
    rw [remove_eq_some s v w h, contains_eq, getStorage_upd_self, upd_same,
      Nat.testBit_and, testBit_not64_shift_self _ (sub_lt_width v), Bool.and_false]

lemma addr_inj (v1 v2 : Nat) (h1 : v1 < 2 ^ PTR_WIDTH) (h2 : v2 < 2 ^ PTR_WIDTH)
    (hb : bkt v1 = bkt v2) (hi : off v1 = off v2) (hs : sub v1 = sub v2) :
    v1 = v2 := by
  have k1 : v1 / PTR_WIDTH + 1 < 2 ^ PTR_WIDTH := by unfold PTR_WIDTH at *; omega
  have k2 : v2 / PTR_WIDTH + 1 < 2 ^ PTR_WIDTH := by unfold PTR_WIDTH at *; omega
  have r1 := index_recover (v1 / PTR_WIDTH) k1
  have r2 := index_recover (v2 / PTR_WIDTH) k2
  unfold bkt at hb
  unfold off at hi
  have hk : v1 / PTR_WIDTH = v2 / PTR_WIDTH := by rw [← r1, ← r2, hb, hi]
  unfold sub at hs
  calc v1 = PTR_WIDTH * (v1 / PTR_WIDTH) + v1 % PTR_WIDTH :=
        (Nat.div_add_mod v1 PTR_WIDTH).symm
    _ = PTR_WIDTH * (v2 / PTR_WIDTH) + v2 % PTR_WIDTH := by rw [hk, hs]
    _ = v2 := Nat.div_add_mod v2 PTR_WIDTH

lemma contains_add_of_ne (s : AtomicBitSet) (v1 v2 : Nat)
    (h1 : v1 < 2 ^ PTR_WIDTH) (h2 : v2 < 2 ^ PTR_WIDTH) (hne : v2 ≠ v1) :
    (s.add v1).2.contains v2 = s.contains v2 := by
  rw [add_eq, contains_eq, contains_eq]
  by_cases hb : bkt v2 = bkt v1
  · rw [hb, getStorage_upd_self]
    by_cases hi : off v2 = off v1
    · have hs : sub v1 ≠ sub v2 := fun hsub =>
        hne (addr_inj v2 v1 h2 h1 hb hi hsub.symm)
      rw [hi, upd_same, Nat.testBit_or, shift_testBit_ne _ _ hs, Bool.or_false]
    · rw [upd_ne _ _ _ _ hi]
  · rw [getStorage_upd_of_ne _ _ _ _ hb]

lemma insertAll_contains (l : List Nat) (s : AtomicBitSet) (v : Nat)
    (h : v ∈ l ∨ s.contains v = true) : (insertAll l s).contains v = true := by
  induction l generalizing s with
  | nil =>
    rcases h with h | h
    · cases h
    · exact h
  | cons w l ih =>
    simp only [insertAll, List.foldl_cons]
    apply ih
    rcases h with h | h
    · rcases List.mem_cons.mp h with h | h
      · right
        subst h
        exact contains_add_self s v
      · left
        exact h
    · right
      exact contains_add_mono s w v h

/-! ## Claim theorems -/

/-- C1: Idempotent insertion.  For every value `v` and every state, `add v`
returns whether `v`'s bit was already set immediately beforehand (so the
first `add` of a non-member returns `false` and every subsequent `add`
returns `true`); `contains v` is `true` directly after an `add v`; `add`
never clears any member; and after inserting every value in `0..100_000`
into a fresh set, `contains u` is `true` for every `u` in that range. -/
theorem add_idempotent_insertion (s : AtomicBitSet) (v : Nat) :
    ((s.add v).1 = s.contains v) ∧
    ((s.add v).2.contains v = true) ∧
    (((s.add v).2.add v).1 = true) ∧
    (∀ w, s.contains w = true → (s.add v).2.contains w = true) ∧
    (∀ u, u < 100000 →
      (insertAll (List.range 100000) AtomicBitSet.new).contains u = true) := by
  refine ⟨add_fst s v, contains_add_self s v, ?_, fun w h => contains_add_mono s v w h,
    fun u hu => insertAll_contains _ _ _ (Or.inl (List.mem_range.mpr hu))⟩
  rw [add_fst]
  exact contains_add_self s v

/-- Witness for C1 at concrete inputs: the monotonicity hypothesis is
discharged on the state obtained by inserting `5` into a fresh set, and the
range hypothesis at `u = 5`. -/
theorem add_idempotent_insertion_witness :
    ((AtomicBitSet.new.add 5).2.contains 5 = true →
      (((AtomicBitSet.new.add 5).2.add 3).2.contains 5 = true)) ∧
    (5 < 100000) ∧
    ((insertAll (List.range 100000) AtomicBitSet.new).contains 5 = true) :=
  ⟨fun h => (add_idempotent_insertion (AtomicBitSet.new.add 5).2 3).2.2.2.1 5 h,
   by decide,
   (add_idempotent_insertion AtomicBitSet.new 0).2.2.2.2 5 (by decide)⟩

/-- C2: Removal correctness.  `remove v` returns exactly the prior membership
of `v` (so `false` for a value never inserted or not currently a member);
after a `remove v` the value is no longer a member; when `v` is not a member
`remove v` returns `false` and `contains v` stays `false`; after an `add v`,
`remove v` returns `true` and an immediately following second `remove v`
returns `false`. -/
theorem remove_correct (s : AtomicBitSet) (v : Nat) :
    ((s.remove v).1 = s.contains v) ∧
    ((s.remove v).2.contains v = false) ∧
    (s.contains v = false →
      (s.remove v).1 = false ∧ (s.remove v).2.contains v = false) ∧
    (((s.add v).2.remove v).1 = true) ∧
    ((((s.add v).2.remove v).2.remove v).1 = false) := by
  refine ⟨remove_fst s v, contains_remove_self s v,
    fun h => ⟨by rw [remove_fst, h], contains_remove_self s v⟩, ?_, ?_⟩
  · rw [remove_fst]
    exact contains_add_self s v
  · rw [remove_fst]
    exact contains_remove_self _ v

/-- Witness for C2: the non-member hypothesis is discharged on a fresh set at
`v = 7`. -/
theorem remove_correct_witness :
    (AtomicBitSet.new.contains 7 = false) ∧
    ((AtomicBitSet.new.remove 7).1 = false ∧
      (AtomicBitSet.new.remove 7).2.contains 7 = false) :=
  ⟨by decide, (remove_correct AtomicBitSet.new 7).2.2.1 (by decide)⟩

/-- C4: Address-translation closed form.  For every word index `k` whose
successor fits in a machine word, `index k` returns the bucket number
`⌊log2 (k + 1)⌋` (the position of the highest set bit of `k + 1`), the
bucket word count `2 ^ bucket`, and the offset `k - (2 ^ bucket - 1)`. -/
theorem index_closed_form (k : Nat) (h : k + 1 < 2 ^ PTR_WIDTH) :
    index k = (Nat.log2 (k + 1), 2 ^ Nat.log2 (k + 1),
      k - (2 ^ Nat.log2 (k + 1) - 1)) :=
  index_eq k h

/-- Witness for C4 at `k = 0`: the edge case maps to bucket number `0`, the
single-word bucket, at offset `0`. -/
theorem index_closed_form_witness :
    (0 + 1 < 2 ^ PTR_WIDTH) ∧
    index 0 = (Nat.log2 1, 2 ^ Nat.log2 1, 0 - (2 ^ Nat.log2 1 - 1)) ∧
    index 0 = (0, 1, 0) :=
  ⟨by decide, index_closed_form 0 (by decide), by decide⟩

/-- C5: Every `usize` bit index is representable and all internal indexing is
in bounds: for every value `v` below `2 ^ 64`, the slot array has exactly
`PTR_WIDTH` slots (`BUCKET_COUNT = PTR_WIDTH`), the translated bucket number
is strictly below `BUCKET_COUNT`, the offset is strictly below that bucket's
word count `2 ^ bucket` (which is what `index` reports as the bucket size),
and the sub-bit index is strictly below `PTR_WIDTH` — so `add`, `remove` and
`contains` never address a slot or word out of bounds. -/
theorem usize_indexing_in_bounds (v : Nat) (h : v < 2 ^ PTR_WIDTH) :
    BUCKET_COUNT = PTR_WIDTH ∧
    (index (v / PTR_WIDTH)).1 < BUCKET_COUNT ∧
    (index (v / PTR_WIDTH)).2.1 = 2 ^ (index (v / PTR_WIDTH)).1 ∧
    (index (v / PTR_WIDTH)).2.2 < 2 ^ (index (v / PTR_WIDTH)).1 ∧
    v % PTR_WIDTH < PTR_WIDTH := by
  have hk : v / PTR_WIDTH + 1 < 2 ^ PTR_WIDTH := by
    unfold PTR_WIDTH at *
    omega
  obtain ⟨hb, hs, hi⟩ := index_bounds (v / PTR_WIDTH) hk
  exact ⟨rfl, hb, hs, hi, Nat.mod_lt v (by unfold PTR_WIDTH; omega)⟩

/-- Witness for C5 at the largest `usize` value `2 ^ 64 - 1`. -/
theorem usize_indexing_in_bounds_witness :
    (2 ^ PTR_WIDTH - 1 < 2 ^ PTR_WIDTH) ∧
    (BUCKET_COUNT = PTR_WIDTH ∧
      (index ((2 ^ PTR_WIDTH - 1) / PTR_WIDTH)).1 < BUCKET_COUNT ∧
      (index ((2 ^ PTR_WIDTH - 1) / PTR_WIDTH)).2.1 =
        2 ^ (index ((2 ^ PTR_WIDTH - 1) / PTR_WIDTH)).1 ∧
      (index ((2 ^ PTR_WIDTH - 1) / PTR_WIDTH)).2.2 <
        2 ^ (index ((2 ^ PTR_WIDTH - 1) / PTR_WIDTH)).1 ∧
      (2 ^ PTR_WIDTH - 1) % PTR_WIDTH < PTR_WIDTH) :=
  ⟨by decide, usize_indexing_in_bounds (2 ^ PTR_WIDTH - 1) (by decide)⟩

/-- C10: The loop-based helper agrees with the bit-scan closed form.  For
every word index `k` below `usize::MAX` (so that `k + 1` does not overflow),
the naive linear scan `most_sig_set_bit (k + 1)` returns `some b` where `b`
is exactly the bucket number that `index k` computes via leading zeros. -/
theorem most_sig_set_bit_agrees_index (k : Nat) (h : k < 2 ^ PTR_WIDTH - 1) :
    most_sig_set_bit (k + 1) = some (index k).1 := by
  rw [index_fst k (by omega)]
  exact msb_eq_log2 (k + 1) (by omega) (by omega)

/-- Witness for C10 at `k = 5`: `most_sig_set_bit 6 = some 2 = some (index 5).1`. -/
theorem most_sig_set_bit_agrees_index_witness :
    (5 < 2 ^ PTR_WIDTH - 1) ∧ most_sig_set_bit 6 = some (index 5).1 :=
  ⟨by decide, most_sig_set_bit_agrees_index 5 (by decide)⟩

/-- C6: Removal never grows the structure.  When the addressed bucket slot is
null, `remove v` returns `false` immediately and the state — every bucket
slot and every stored bit — is returned unchanged (no allocation occurs);
moreover the `false` return of `remove` does not distinguish an unallocated
bucket from an allocated bucket whose bit is clear: it is `false` exactly
when `v` is not currently a member. -/
theorem remove_never_grows (s : AtomicBitSet) (v : Nat) :
    (s.buckets (index (v / PTR_WIDTH)).1 = none → s.remove v = (false, s)) ∧
    ((s.remove v).1 = false ↔ s.contains v = false) := by
  constructor
  · intro h
    exact remove_eq_none s v h
  · rw [remove_fst]

/-- Witness for C6: the null-slot hypothesis is discharged on a fresh set at
`v = 9`, and the allocated-but-clear case on the set `{70}` at `v = 9`
(same bucket 1, bit clear), both yielding `false`. -/
theorem remove_never_grows_witness :
    (AtomicBitSet.new.buckets (index (9 / PTR_WIDTH)).1 = none ∧
      AtomicBitSet.new.remove 9 = (false, AtomicBitSet.new)) ∧
    (((AtomicBitSet.new.add 70).2.remove 64).1 = false ↔
      (AtomicBitSet.new.add 70).2.contains 64 = false) :=
  ⟨⟨rfl, (remove_never_grows AtomicBitSet.new 9).1 rfl⟩,
   (remove_never_grows (AtomicBitSet.new.add 70).2 64).2⟩

/-- C7: Independence of distinct values.  For every state and all distinct
machine-word values `v1 ≠ v2`, executing `add v1` leaves the result of
`contains v2` unchanged — whether the two values land in different buckets,
different words of one bucket, or different bits of one word. -/
theorem add_independent (s : AtomicBitSet) (v1 v2 : Nat)
    (h1 : v1 < 2 ^ PTR_WIDTH) (h2 : v2 < 2 ^ PTR_WIDTH) (hne : v2 ≠ v1) :
    (s.add v1).2.contains v2 = s.contains v2 :=
  contains_add_of_ne s v1 v2 h1 h2 hne

/-- Witness for C7 at `v1 = 3`, `v2 = 5` on the set `{5}`: the hypotheses are
discharged concretely and membership of `5` is unaffected by adding `3`. -/
theorem add_independent_witness :
    3 < 2 ^ PTR_WIDTH ∧ 5 < 2 ^ PTR_WIDTH ∧ (5 : Nat) ≠ 3 ∧
    ((AtomicBitSet.new.add 5).2.add 3).2.contains 5 =
      (AtomicBitSet.new.add 5).2.contains 5 :=
  ⟨by decide, by decide, by decide,
   add_independent (AtomicBitSet.new.add 5).2 3 5 (by decide) (by decide) (by decide)⟩

/-- C8: Allocation failure is fatal and atomic.  In the explicit-allocator
semantics `addAlloc`, the only error condition is allocator exhaustion during
lazy bucket acquisition: when the slot is null and the zeroed allocation
fails, the operation aborts (result `none`) with no slot published and no bit
mutated — no partially updated state is ever produced; when the allocation
succeeds, or when the slot is already allocated (so the allocator is never
consulted), the operation completes and agrees exactly with `add`, returning
a `Bool` rather than any error value. -/
theorem alloc_failure_fatal (s : AtomicBitSet) (v : Nat) :
    (s.buckets (index (v / PTR_WIDTH)).1 = none → s.addAlloc v false = none) ∧
    (s.addAlloc v true = some (s.add v)) ∧
    (∀ w, s.buckets (index (v / PTR_WIDTH)).1 = some w →
      s.addAlloc v false = some (s.add v)) := by
  refine ⟨fun h => ?_, ?_, fun w h => ?_⟩
  · simp [AtomicBitSet.addAlloc, h]
  · cases h : s.buckets (index (v / PTR_WIDTH)).1 <;>
      simp [AtomicBitSet.addAlloc, AtomicBitSet.add, h]
  · simp [AtomicBitSet.addAlloc, AtomicBitSet.add, h]

/-- Witness for C8: on a fresh set the null-slot hypothesis holds at `v = 0`
and a failing allocation aborts; on the set `{0}` the slot for `v = 0` is
already published, so a failing allocator is irrelevant. -/
theorem alloc_failure_fatal_witness :
    (AtomicBitSet.new.buckets (index (0 / PTR_WIDTH)).1 = none ∧
      AtomicBitSet.new.addAlloc 0 false = none) ∧
    ((AtomicBitSet.new.add 0).2.addAlloc 0 false =
      some ((AtomicBitSet.new.add 0).2.add 0)) :=
  ⟨⟨rfl, (alloc_failure_fatal AtomicBitSet.new 0).1 rfl⟩,
   (alloc_failure_fatal (AtomicBitSet.new.add 0).2 0).2.2 _ rfl⟩

/-- C3 (counterexample to the reset claim): `clear` breaks at the first null
slot, so a sequentially reachable sparse state is not fully reset.  After
`add 64` on a fresh set (which allocates bucket 1 and leaves slot 0 null),
`clear` nulls no slot at all: slot 1 is still allocated afterwards and
`contains 64` still returns `true`, contradicting "every bucket slot is null"
and "`contains v` returns `false` for every previously inserted `v`". -/
theorem clear_break_leaves_gap_bucket :
    (AtomicBitSet.new.add 64).2.buckets 0 = none ∧
    (((AtomicBitSet.new.add 64).2.clear).buckets 1).isSome = true ∧
    ((AtomicBitSet.new.add 64).2.clear).contains 64 = true :=
  ⟨rfl, rfl, rfl⟩

/-! ## Fine-grained concurrent semantics of `add`

Each shared-memory access of the source's `add` — the acquire load of the
slot, the compare-and-swap publication, and the `fetch_or` — is one atomic
step; allocations carry explicit identities so that the canonical (published)
block of a bucket can be distinguished from a speculative block that lost the
compare-and-swap race and was deallocated. -/

namespace Conc

/-- The shared memory: bucket slots hold block identities (`none` = null
pointer), `blocks` gives each block's words, `nextId` is the allocator's
fresh-identity counter, and `freed` records the speculative blocks
deallocated by compare-and-swap losers. -/
structure Heap where
  slots : Nat → Option Nat
  blocks : Nat → (Nat → Nat)
  nextId : Nat
  freed : List Nat

/-- Program counter of a thread inside one `add` call: before the slot load,
holding a speculative allocation about to compare-and-swap, or holding the
canonical block about to `fetch_or`. -/
inductive ThreadPC where
  | start : ThreadPC
  | casing : Nat → ThreadPC
  | fetching : Nat → ThreadPC

/-- A thread inserting a list of keys, one `add` at a time: `todo` is the
list of keys still to insert (the head is the one currently being added). -/
structure Thread where
  todo : List Nat
  pc : ThreadPC

/-- Allocate a fresh zeroed block (`alloc_zeroed`). -/
def allocHeap (h : Heap) : Heap :=
  { h with blocks := upd h.blocks h.nextId (fun _ => 0), nextId := h.nextId + 1 }

/-- Publish block `id` into slot `b` (successful compare-and-swap). -/
def casHeap (h : Heap) (b id : Nat) : Heap :=
  { h with slots := upd h.slots b (some id) }

/-- Deallocate the speculative block `id` (compare-and-swap loser). -/
def freeHeap (h : Heap) (id : Nat) : Heap :=
  { h with freed := id :: h.freed }

/-- `fetch_or` of `v`'s bit into block `id` (one atomic read-modify-write). -/
def orHeap (h : Heap) (id v : Nat) : Heap :=
  { h with blocks := upd h.blocks id (upd (h.blocks id) (off v) (h.blocks id (off v) ||| (1 <<< sub v))) }

/-- One atomic step of a thread: the acquire load (branching on null), the
compare-and-swap (publishing on success, deallocating and adopting the
winner on failure), or the `fetch_or` (which completes the current `add` and
moves to the next key). A thread with nothing left to do does not move. -/
def threadStep (h : Heap) (t : Thread) : Thread × Heap :=
  match t.todo with
  | [] => (t, h)
  | v :: rest =>
    match t.pc with
    | .start =>
      match h.slots (bkt v) with
      | some id => ({ t with pc := .fetching id }, h)
      | none => ({ t with pc := .casing h.nextId }, allocHeap h)
    | .casing id =>
      match h.slots (bkt v) with
      | none => ({ t with pc := .fetching id }, casHeap h (bkt v) id)
      | some winner => ({ t with pc := .fetching winner }, freeHeap h id)
    | .fetching id =>
      (⟨rest, .start⟩, orHeap h id v)

/-- A configuration: the shared heap and the thread pool. -/
structure Config where
  heap : Heap
  threads : List Thread

/-- Interleaving semantics: scheduler picks thread `i` and runs its next
atomic step. -/
def stepAt (c : Config) (i : Nat) : Config :=
  match c.threads[i]? with
  | none => c
  | some t =>
    let s := threadStep c.heap t
    { heap := s.2, threads := c.threads.set i s.1 }

/-- Reachability under arbitrary interleavings. -/
inductive Reaches (c0 : Config) : Config → Prop where
  | refl : Reaches c0 c0
  | step (c' : Config) (i : Nat) (h : Reaches c0 c') : Reaches c0 (stepAt c' i)

/-- The initial configuration: empty heap, one thread per key list, every
thread at the start of its first `add`. -/
def initConfig (vss : List (List Nat)) : Config :=
  ⟨⟨fun _ => none, fun _ _ => 0, 0, []⟩, vss.map fun vs => ⟨vs, .start⟩⟩

/-- Membership in the shared heap, read exactly as the source's `contains`:
null slot means absent, otherwise test the bit in the canonical block. -/
def heapContains (h : Heap) (v : Nat) : Bool :=
  match h.slots (bkt v) with
  | none => false
  | some id => h.blocks id (off v) &&& (1 <<< sub v) != 0

/-- Thread-local correctness: a speculative allocation is in the allocator's
range, unpublished and not freed; a thread at the `fetch_or` with work left
holds exactly the canonical block of its current key's bucket. -/
def goodThread (h : Heap) (t : Thread) : Prop :=
  match t.pc with
  | .start => True
  | .casing id => id < h.nextId ∧ (∀ b, h.slots b ≠ some id) ∧ id ∉ h.freed
  | .fetching id =>
    match t.todo with
    | [] => True
    | v :: _ => h.slots (bkt v) = some id

/-- The global invariant: published identities are in the allocator's range,
freed identities are in range and never published, every thread is locally
correct, and speculative identities held by distinct threads are distinct. -/
structure Inv (c : Config) : Prop where
  slotBound : ∀ b id, c.heap.slots b = some id → id < c.heap.nextId
  freedBound : ∀ id, id ∈ c.heap.freed → id < c.heap.nextId
  freedUnpub : ∀ id, id ∈ c.heap.freed → ∀ b, c.heap.slots b ≠ some id
  pcs : ∀ (j : Nat) (t : Thread), c.threads[j]? = some t → goodThread c.heap t
  casingDistinct : ∀ (i j : Nat) (t t' : Thread) (id id' : Nat), i ≠ j →
    c.threads[i]? = some t →
    c.threads[j]? = some t' → t.pc = ThreadPC.casing id →
    t'.pc = ThreadPC.casing id' → id ≠ id'

/-! ### Preservation of membership under each atomic heap operation -/

lemma allocHeap_slots (h : Heap) : (allocHeap h).slots = h.slots := rfl

lemma allocHeap_blocks (h : Heap) :
    (allocHeap h).blocks = upd h.blocks h.nextId (fun _ => 0) := rfl

lemma allocHeap_nextId (h : Heap) : (allocHeap h).nextId = h.nextId + 1 := rfl

lemma allocHeap_freed (h : Heap) : (allocHeap h).freed = h.freed := rfl

lemma casHeap_slots (h : Heap) (b id : Nat) :
    (casHeap h b id).slots = upd h.slots b (some id) := rfl

lemma casHeap_blocks (h : Heap) (b id : Nat) : (casHeap h b id).blocks = h.blocks := rfl

lemma casHeap_nextId (h : Heap) (b id : Nat) : (casHeap h b id).nextId = h.nextId := rfl

lemma casHeap_freed (h : Heap) (b id : Nat) : (casHeap h b id).freed = h.freed := rfl

lemma freeHeap_slots (h : Heap) (id : Nat) : (freeHeap h id).slots = h.slots := rfl

lemma freeHeap_blocks (h : Heap) (id : Nat) : (freeHeap h id).blocks = h.blocks := rfl

lemma freeHeap_nextId (h : Heap) (id : Nat) : (freeHeap h id).nextId = h.nextId := rfl

lemma freeHeap_freed (h : Heap) (id : Nat) : (freeHeap h id).freed = id :: h.freed := rfl

lemma orHeap_slots (h : Heap) (id v : Nat) : (orHeap h id v).slots = h.slots := rfl

lemma orHeap_blocks (h : Heap) (id v : Nat) :
    (orHeap h id v).blocks =
      upd h.blocks id (upd (h.blocks id) (off v) (h.blocks id (off v) ||| (1 <<< sub v))) := rfl

lemma orHeap_nextId (h : Heap) (id v : Nat) : (orHeap h id v).nextId = h.nextId := rfl

lemma orHeap_freed (h : Heap) (id v : Nat) : (orHeap h id v).freed = h.freed := rfl

lemma heapContains_of_slots_none (h : Heap) (v : Nat) (hs : h.slots (bkt v) = none) :
    heapContains h v = false := by
  simp [heapContains, hs]

lemma heapContains_of_slots_some (h : Heap) (v id : Nat) (hs : h.slots (bkt v) = some id) :
    heapContains h v = (h.blocks id (off v) &&& (1 <<< sub v) != 0) := by
  simp [heapContains, hs]

lemma heapContains_allocHeap (h : Heap) (v : Nat)
    (hb : ∀ b id, h.slots b = some id → id < h.nextId)
    (hc : heapContains h v = true) : heapContains (allocHeap h) v = true := by
  cases hs : h.slots (bkt v) with
  | none => rw [heapContains_of_slots_none h v hs] at hc; cases hc
  | some id =>
    rw [heapContains_of_slots_some h v id hs] at hc
    rw [heapContains_of_slots_some (allocHeap h) v id (by rw [allocHeap_slots]; exact hs)]
    rw [allocHeap_blocks, upd_ne _ _ _ _ (Nat.ne_of_lt (hb _ _ hs))]
    exact hc

lemma heapContains_casHeap (h : Heap) (v b' id' : Nat)
    (hnull : h.slots b' = none) (hc : heapContains h v = true) :
    heapContains (casHeap h b' id') v = true := by
  cases hs : h.slots (bkt v) with
  | none => rw [heapContains_of_slots_none h v hs] at hc; cases hc
  | some id =>
    have hne : bkt v ≠ b' := by
      intro he
      rw [he, hnull] at hs
      cases hs
    rw [heapContains_of_slots_some h v id hs] at hc
    rw [heapContains_of_slots_some (casHeap h b' id') v id
      (by rw [casHeap_slots]; rw [upd_ne _ _ _ _ hne]; exact hs)]
    rw [casHeap_blocks]
    exact hc

lemma heapContains_freeHeap (h : Heap) (v id' : Nat)
    (hc : heapContains h v = true) : heapContains (freeHeap h id') v = true := hc

lemma heapContains_orHeap (h : Heap) (v w id' : Nat)
    (hc : heapContains h v = true) : heapContains (orHeap h id' w) v = true := by
  cases hs : h.slots (bkt v) with
  | none => rw [heapContains_of_slots_none h v hs] at hc; cases hc
  | some id =>
    rw [heapContains_of_slots_some h v id hs] at hc
    rw [heapContains_of_slots_some (orHeap h id' w) v id
      (by rw [orHeap_slots]; exact hs)]
    rw [orHeap_blocks]
    by_cases hid : id = id'
    · subst hid
      rw [upd_same]
      by_cases ho : off v = off w
      · rw [and_one_shift] at hc
        rw [ho, upd_same, and_one_shift, Nat.testBit_or, ← ho, hc, Bool.true_or]
      · rw [upd_ne _ _ _ _ ho]
        exact hc
    · rw [upd_ne _ _ _ _ hid]
      exact hc

lemma heapContains_orHeap_self (h : Heap) (v id : Nat)
    (hs : h.slots (bkt v) = some id) : heapContains (orHeap h id v) v = true := by
  rw [heapContains_of_slots_some (orHeap h id v) v id (by rw [orHeap_slots]; exact hs)]
  rw [orHeap_blocks, upd_same, upd_same, and_one_shift, Nat.testBit_or,
    shift_testBit_self, Bool.or_true]

/-! ### Step equations and list helpers -/

lemma stepAt_of_none (c : Config) (i : Nat) (h : c.threads[i]? = none) :
    stepAt c i = c := by
  simp [stepAt, h]

lemma stepAt_of_some (c : Config) (i : Nat) (t : Thread) (h : c.threads[i]? = some t) :
    stepAt c i = ⟨(threadStep c.heap t).2, c.threads.set i (threadStep c.heap t).1⟩ := by
  simp [stepAt, h]

lemma threadStep_nil (h : Heap) (pc : ThreadPC) :
    threadStep h ⟨[], pc⟩ = (⟨[], pc⟩, h) := rfl

lemma threadStep_start_pub (h : Heap) (v : Nat) (rest : List Nat) (id : Nat)
    (hs : h.slots (bkt v) = some id) :
    threadStep h ⟨v :: rest, .start⟩ = (⟨v :: rest, .fetching id⟩, h) := by
  simp [threadStep, hs]

lemma threadStep_start_alloc (h : Heap) (v : Nat) (rest : List Nat)
    (hs : h.slots (bkt v) = none) :
    threadStep h ⟨v :: rest, .start⟩ = (⟨v :: rest, .casing h.nextId⟩, allocHeap h) := by
  simp [threadStep, hs]

lemma threadStep_cas_win (h : Heap) (v : Nat) (rest : List Nat) (id : Nat)
    (hs : h.slots (bkt v) = none) :
    threadStep h ⟨v :: rest, .casing id⟩ =
      (⟨v :: rest, .fetching id⟩, casHeap h (bkt v) id) := by
  simp [threadStep, hs]

lemma threadStep_cas_lose (h : Heap) (v : Nat) (rest : List Nat) (id winner : Nat)
    (hs : h.slots (bkt v) = some winner) :
    threadStep h ⟨v :: rest, .casing id⟩ =
      (⟨v :: rest, .fetching winner⟩, freeHeap h id) := by
  simp [threadStep, hs]

lemma threadStep_fetch (h : Heap) (v : Nat) (rest : List Nat) (id : Nat) :
    threadStep h ⟨v :: rest, .fetching id⟩ = (⟨rest, .start⟩, orHeap h id v) := rfl

lemma set_preserve_getElem? {α : Type} (l : List α) (i : Nat) (a : α) (j : Nat)
    (x : α) (h : (l.set i a)[j]? = some x) :
    (i = j ∧ i < l.length ∧ x = a) ∨ (i ≠ j ∧ l[j]? = some x) := by
  rw [List.getElem?_set] at h
  by_cases hij : i = j
  · subst hij
    rw [if_pos rfl] at h
    by_cases hlen : i < l.length
    · rw [if_pos hlen] at h
      exact Or.inl ⟨rfl, hlen, (Option.some.inj h).symm⟩
    · rw [if_neg hlen] at h
      cases h
  · rw [if_neg hij] at h
    exact Or.inr ⟨hij, h⟩

lemma set_self_of_getElem? {α : Type} :
    ∀ (l : List α) (i : Nat) (x : α), l[i]? = some x → l.set i x = l
  | [], i, x, h => by simp at h
  | a :: l, 0, x, h => by
    simp only [List.getElem?_cons_zero] at h
    rw [(Option.some.inj h)]
    rfl
  | a :: l, i + 1, x, h => by
    simp only [List.getElem?_cons_succ] at h
    simp [List.set, set_self_of_getElem? l i x h]

/-! ### Preservation of thread-local correctness under the heap operations -/

lemma goodThread_allocHeap (h : Heap) (t : Thread) (hg : goodThread h t) :
    goodThread (allocHeap h) t := by
  obtain ⟨todo, pc⟩ := t
  cases pc with
  | start => trivial
  | casing id =>
    obtain ⟨h1, h2, h3⟩ := hg
    exact ⟨Nat.lt_succ_of_lt h1, h2, h3⟩
  | fetching id =>
    cases todo with
    | nil => trivial
    | cons v rest => exact hg

lemma goodThread_casHeap (h : Heap) (b' id' : Nat) (t : Thread)
    (hnull : h.slots b' = none)
    (hne : ∀ cid, t.pc = ThreadPC.casing cid → cid ≠ id')
    (hg : goodThread h t) : goodThread (casHeap h b' id') t := by
  obtain ⟨todo, pc⟩ := t
  cases pc with
  | start => trivial
  | casing id =>
    obtain ⟨h1, h2, h3⟩ := hg
    refine ⟨h1, ?_, h3⟩
    intro b
    show upd h.slots b' (some id') b ≠ some id
    by_cases hb : b = b'
    · subst hb
      rw [upd_same]
      intro hcon
      exact hne id rfl (Option.some.inj hcon).symm
    · rw [upd_ne _ _ _ _ hb]
      exact h2 b
  | fetching id =>
    cases todo with
    | nil => trivial
    | cons v rest =>
      show upd h.slots b' (some id') (bkt v) = some id
      have hg' : h.slots (bkt v) = some id := hg
      by_cases hb : bkt v = b'
      · rw [hb, hnull] at hg'
        cases hg'
      · rw [upd_ne _ _ _ _ hb]
        exact hg'

lemma goodThread_freeHeap (h : Heap) (id' : Nat) (t : Thread)
    (hne : ∀ cid, t.pc = ThreadPC.casing cid → cid ≠ id')
    (hg : goodThread h t) : goodThread (freeHeap h id') t := by
  obtain ⟨todo, pc⟩ := t
  cases pc with
  | start => trivial
  | casing id =>
    obtain ⟨h1, h2, h3⟩ := hg
    refine ⟨h1, h2, ?_⟩
    show id ∉ id' :: h.freed
    intro hmem
    rcases List.mem_cons.mp hmem with he | hin
    · exact hne id rfl he
    · exact h3 hin
  | fetching id =>
    cases todo with
    | nil => trivial
    | cons v rest => exact hg

lemma goodThread_orHeap (h : Heap) (id' w : Nat) (t : Thread)
    (hg : goodThread h t) : goodThread (orHeap h id' w) t := hg

lemma goodThread_casing (h : Heap) (t : Thread) (id : Nat)
    (hpc : t.pc = ThreadPC.casing id) (hg : goodThread h t) :
    id < h.nextId ∧ (∀ b, h.slots b ≠ some id) ∧ id ∉ h.freed := by
  obtain ⟨todo, pc⟩ := t
  cases hpc
  exact hg

/-- Distinctness of speculative identities survives replacing thread `i`,
provided the replacement is distinct from every other thread's identity. -/
lemma casingDistinct_set (l : List Thread) (i : Nat) (newT : Thread)
    (hcd : ∀ (a b : Nat) (t t' : Thread) (id id' : Nat), a ≠ b → l[a]? = some t →
      l[b]? = some t' → t.pc = ThreadPC.casing id → t'.pc = ThreadPC.casing id' →
      id ≠ id')
    (hnew : ∀ (b : Nat) (t' : Thread) (id id' : Nat), b ≠ i → l[b]? = some t' →
      newT.pc = ThreadPC.casing id → t'.pc = ThreadPC.casing id' → id ≠ id') :
    ∀ (a b : Nat) (t t' : Thread) (id id' : Nat), a ≠ b →
      (l.set i newT)[a]? = some t → (l.set i newT)[b]? = some t' →
      t.pc = ThreadPC.casing id → t'.pc = ThreadPC.casing id' → id ≠ id' := by
  intro a b t t' id id' hab ha hb hpc hpc'
  rcases set_preserve_getElem? l i newT a t ha with ⟨hia, _, hta⟩ | ⟨hia, ha'⟩
  · rcases set_preserve_getElem? l i newT b t' hb with ⟨hib, _, htb⟩ | ⟨hib, hb'⟩
    · exact absurd (hia.symm.trans hib) hab
    · exact hnew b t' id id' (Ne.symm hib) hb' (hta ▸ hpc) hpc'
  · rcases set_preserve_getElem? l i newT b t' hb with ⟨hib, _, htb⟩ | ⟨hib, hb'⟩
    · exact (hnew a t id' id (Ne.symm hia) ha' (htb ▸ hpc') hpc).symm
    · exact hcd a b t t' id id' hab ha' hb' hpc hpc'

/-- The global invariant is preserved by every atomic step of every thread. -/
lemma inv_stepAt (c : Config) (i : Nat) (hinv : Inv c) : Inv (stepAt c i) := by
  obtain ⟨hslot, hfb, hfu, hpcs, hcd⟩ := hinv
  cases hti : c.threads[i]? with
  | none =>
    rw [stepAt_of_none c i hti]
    exact ⟨hslot, hfb, hfu, hpcs, hcd⟩
  | some t =>
    obtain ⟨todo, pc⟩ := t
    have hgt := hpcs i ⟨todo, pc⟩ hti
    cases todo with
    | nil =>
      rw [stepAt_of_some c i ⟨[], pc⟩ hti, threadStep_nil c.heap pc]
      rw [set_self_of_getElem? c.threads i ⟨[], pc⟩ hti]
      exact ⟨hslot, hfb, hfu, hpcs, hcd⟩
    | cons v rest =>
      cases pc with
      | start =>
        cases hs : c.heap.slots (bkt v) with
        | some id =>
          rw [stepAt_of_some c i ⟨v :: rest, .start⟩ hti,
            threadStep_start_pub c.heap v rest id hs]
          refine ⟨hslot, hfb, hfu, ?_, ?_⟩
          · intro j t' hj
            rcases set_preserve_getElem? c.threads i ⟨v :: rest, .fetching id⟩ j t' hj
              with ⟨_, _, ht'⟩ | ⟨_, hj'⟩
            · subst ht'
              exact hs
            · exact hpcs j t' hj'
          · exact casingDistinct_set c.threads i ⟨v :: rest, .fetching id⟩ hcd
              (fun _ _ _ _ _ _ hpc _ => ThreadPC.noConfusion hpc)
        | none =>
          rw [stepAt_of_some c i ⟨v :: rest, .start⟩ hti,
            threadStep_start_alloc c.heap v rest hs]
          refine ⟨?_, ?_, ?_, ?_, ?_⟩
          · intro b id0 h0
            exact Nat.lt_succ_of_lt (hslot b id0 h0)
          · intro id0 h0
            exact Nat.lt_succ_of_lt (hfb id0 h0)
          · exact hfu
          · intro j t' hj
            rcases set_preserve_getElem? c.threads i ⟨v :: rest, .casing c.heap.nextId⟩
              j t' hj with ⟨_, _, ht'⟩ | ⟨_, hj'⟩
            · subst ht'
              refine ⟨Nat.lt_succ_self _, ?_, ?_⟩
              · intro b hcon
                exact Nat.lt_irrefl _ (hslot b _ hcon)
              · intro hmem
                exact Nat.lt_irrefl _ (hfb _ hmem)
            · exact goodThread_allocHeap c.heap t' (hpcs j t' hj')
          · refine casingDistinct_set c.threads i ⟨v :: rest, .casing c.heap.nextId⟩ hcd ?_
            intro b t' id0 id0' hbi hb' hpc hpc'
            obtain ⟨h1, _, _⟩ := goodThread_casing c.heap t' id0' hpc' (hpcs b t' hb')
            cases hpc
            exact (Nat.ne_of_lt h1).symm
      | casing id =>
        obtain ⟨hlt, hunp, hnf⟩ := hgt
        cases hs : c.heap.slots (bkt v) with
        | none =>
          rw [stepAt_of_some c i ⟨v :: rest, .casing id⟩ hti,
            threadStep_cas_win c.heap v rest id hs]
          refine ⟨?_, hfb, ?_, ?_, ?_⟩
          · intro b id0 h0
            have h0' : upd c.heap.slots (bkt v) (some id) b = some id0 := h0
            by_cases hb : b = bkt v
            · subst hb
              rw [upd_same] at h0'
              cases h0'
              exact hlt
            · rw [upd_ne _ _ _ _ hb] at h0'
              exact hslot b id0 h0'
          · intro id0 h0 b
            intro hcon
            have hcon' : upd c.heap.slots (bkt v) (some id) b = some id0 := hcon
            by_cases hb : b = bkt v
            · subst hb
              rw [upd_same] at hcon'
              cases hcon'
              exact hnf h0
            · rw [upd_ne _ _ _ _ hb] at hcon'
              exact hfu id0 h0 b hcon'
          · intro j t' hj
            rcases set_preserve_getElem? c.threads i ⟨v :: rest, .fetching id⟩ j t' hj
              with ⟨_, _, ht'⟩ | ⟨hij, hj'⟩
            · subst ht'
              show upd c.heap.slots (bkt v) (some id) (bkt v) = some id
              rw [upd_same]
            · refine goodThread_casHeap c.heap (bkt v) id t' hs ?_ (hpcs j t' hj')
              intro cid hpc'
              exact hcd j i t' ⟨v :: rest, .casing id⟩ cid id (Ne.symm hij) hj' hti hpc' rfl
          · exact casingDistinct_set c.threads i ⟨v :: rest, .fetching id⟩ hcd
              (fun _ _ _ _ _ _ hpc _ => ThreadPC.noConfusion hpc)
        | some winner =>
          rw [stepAt_of_some c i ⟨v :: rest, .casing id⟩ hti,
            threadStep_cas_lose c.heap v rest id winner hs]
          refine ⟨hslot, ?_, ?_, ?_, ?_⟩
          · intro id0 h0
            rcases List.mem_cons.mp h0 with he | hin
            · subst he
              exact hlt
            · exact hfb id0 hin
          · intro id0 h0 b
            rcases List.mem_cons.mp h0 with he | hin
            · subst he
              exact hunp b
            · exact hfu id0 hin b
          · intro j t' hj
            rcases set_preserve_getElem? c.threads i ⟨v :: rest, .fetching winner⟩ j t' hj
              with ⟨_, _, ht'⟩ | ⟨hij, hj'⟩
            · subst ht'
              exact hs
            · refine goodThread_freeHeap c.heap id t' ?_ (hpcs j t' hj')
              intro cid hpc'
              exact hcd j i t' ⟨v :: rest, .casing id⟩ cid id (Ne.symm hij) hj' hti hpc' rfl
          · exact casingDistinct_set c.threads i ⟨v :: rest, .fetching winner⟩ hcd
              (fun _ _ _ _ _ _ hpc _ => ThreadPC.noConfusion hpc)
      | fetching id =>
        rw [stepAt_of_some c i ⟨v :: rest, .fetching id⟩ hti,
          threadStep_fetch c.heap v rest id]
        refine ⟨hslot, hfb, hfu, ?_, ?_⟩
        · intro j t' hj
          rcases set_preserve_getElem? c.threads i ⟨rest, .start⟩ j t' hj
            with ⟨_, _, ht'⟩ | ⟨_, hj'⟩
          · subst ht'
            trivial
          · exact goodThread_orHeap c.heap id v t' (hpcs j t' hj')
        · exact casingDistinct_set c.threads i ⟨rest, .start⟩ hcd
            (fun _ _ _ _ _ _ hpc _ => ThreadPC.noConfusion hpc)

/-! ### The progress invariant: consumed keys are present -/

/-- Relative to the initial assignment `vss` of key lists to threads: every
thread has consumed a prefix of its list, and every consumed key is a member
of the shared heap. -/
def Progress (vss : List (List Nat)) (c : Config) : Prop :=
  c.threads.length = vss.length ∧
  ∀ (j : Nat) (tj : Thread) (vj : List Nat), c.threads[j]? = some tj →
    vss[j]? = some vj →
    ∃ consumed, vj = consumed ++ tj.todo ∧
      ∀ v ∈ consumed, heapContains c.heap v = true

lemma progress_stepAt (vss : List (List Nat)) (c : Config) (i : Nat)
    (hinv : Inv c) (hp : Progress vss c) : Progress vss (stepAt c i) := by
  obtain ⟨hslot, hfb, hfu, hpcs, hcd⟩ := hinv
  obtain ⟨hlen, hcons⟩ := hp
  cases hti : c.threads[i]? with
  | none =>
    rw [stepAt_of_none c i hti]
    exact ⟨hlen, hcons⟩
  | some t =>
    obtain ⟨todo, pc⟩ := t
    have hgt := hpcs i ⟨todo, pc⟩ hti
    cases todo with
    | nil =>
      rw [stepAt_of_some c i ⟨[], pc⟩ hti, threadStep_nil c.heap pc,
        set_self_of_getElem? c.threads i ⟨[], pc⟩ hti]
      exact ⟨hlen, hcons⟩
    | cons v rest =>
      cases pc with
      | start =>
        cases hs : c.heap.slots (bkt v) with
        | some id =>
          rw [stepAt_of_some c i ⟨v :: rest, .start⟩ hti,
            threadStep_start_pub c.heap v rest id hs]
          refine ⟨by rw [List.length_set]; exact hlen, ?_⟩
          intro j tj vj hj hvj
          rcases set_preserve_getElem? c.threads i ⟨v :: rest, .fetching id⟩ j tj hj
            with ⟨hij, _, htj⟩ | ⟨hij, hj'⟩
          · obtain ⟨cons0, he, hm⟩ := hcons j ⟨v :: rest, .start⟩ vj (hij ▸ hti) hvj
            exact ⟨cons0, by rw [htj]; exact he, hm⟩
          · exact hcons j tj vj hj' hvj
        | none =>
          rw [stepAt_of_some c i ⟨v :: rest, .start⟩ hti,
            threadStep_start_alloc c.heap v rest hs]
          refine ⟨by rw [List.length_set]; exact hlen, ?_⟩
          intro j tj vj hj hvj
          rcases set_preserve_getElem? c.threads i ⟨v :: rest, .casing c.heap.nextId⟩
            j tj hj with ⟨hij, _, htj⟩ | ⟨hij, hj'⟩
          · obtain ⟨cons0, he, hm⟩ := hcons j ⟨v :: rest, .start⟩ vj (hij ▸ hti) hvj
            exact ⟨cons0, by rw [htj]; exact he,
              fun v0 hv0 => heapContains_allocHeap c.heap v0 hslot (hm v0 hv0)⟩
          · obtain ⟨cons0, he, hm⟩ := hcons j tj vj hj' hvj
            exact ⟨cons0, he,
              fun v0 hv0 => heapContains_allocHeap c.heap v0 hslot (hm v0 hv0)⟩
      | casing id =>
        cases hs : c.heap.slots (bkt v) with
        | none =>
          rw [stepAt_of_some c i ⟨v :: rest, .casing id⟩ hti,
            threadStep_cas_win c.heap v rest id hs]
          refine ⟨by rw [List.length_set]; exact hlen, ?_⟩
          intro j tj vj hj hvj
          rcases set_preserve_getElem? c.threads i ⟨v :: rest, .fetching id⟩ j tj hj
            with ⟨hij, _, htj⟩ | ⟨hij, hj'⟩
          · obtain ⟨cons0, he, hm⟩ := hcons j ⟨v :: rest, .casing id⟩ vj (hij ▸ hti) hvj
            exact ⟨cons0, by rw [htj]; exact he,
              fun v0 hv0 => heapContains_casHeap c.heap v0 (bkt v) id hs (hm v0 hv0)⟩
          · obtain ⟨cons0, he, hm⟩ := hcons j tj vj hj' hvj
            exact ⟨cons0, he,
              fun v0 hv0 => heapContains_casHeap c.heap v0 (bkt v) id hs (hm v0 hv0)⟩
        | some winner =>
          rw [stepAt_of_some c i ⟨v :: rest, .casing id⟩ hti,
            threadStep_cas_lose c.heap v rest id winner hs]
          refine ⟨by rw [List.length_set]; exact hlen, ?_⟩
          intro j tj vj hj hvj
          rcases set_preserve_getElem? c.threads i ⟨v :: rest, .fetching winner⟩ j tj hj
            with ⟨hij, _, htj⟩ | ⟨hij, hj'⟩
          · obtain ⟨cons0, he, hm⟩ := hcons j ⟨v :: rest, .casing id⟩ vj (hij ▸ hti) hvj
            exact ⟨cons0, by rw [htj]; exact he,
              fun v0 hv0 => heapContains_freeHeap c.heap v0 id (hm v0 hv0)⟩
          · obtain ⟨cons0, he, hm⟩ := hcons j tj vj hj' hvj
            exact ⟨cons0, he,
              fun v0 hv0 => heapContains_freeHeap c.heap v0 id (hm v0 hv0)⟩
      | fetching id =>
        rw [stepAt_of_some c i ⟨v :: rest, .fetching id⟩ hti,
          threadStep_fetch c.heap v rest id]
        refine ⟨by rw [List.length_set]; exact hlen, ?_⟩
        intro j tj vj hj hvj
        rcases set_preserve_getElem? c.threads i ⟨rest, .start⟩ j tj hj
          with ⟨hij, _, htj⟩ | ⟨hij, hj'⟩
        · obtain ⟨cons0, he, hm⟩ := hcons j ⟨v :: rest, .fetching id⟩ vj (hij ▸ hti) hvj
          refine ⟨cons0 ++ [v], ?_, ?_⟩
          · rw [htj]
            show vj = (cons0 ++ [v]) ++ rest
            rw [he, List.append_assoc, List.singleton_append]
          · intro v0 hv0
            rcases List.mem_append.mp hv0 with hin | hin
            · exact heapContains_orHeap c.heap v0 v id (hm v0 hin)
            · have hv0v : v0 = v := by simpa using hin
              subst hv0v
              exact heapContains_orHeap_self c.heap v0 id hgt
        · obtain ⟨cons0, he, hm⟩ := hcons j tj vj hj' hvj
          exact ⟨cons0, he,
            fun v0 hv0 => heapContains_orHeap c.heap v0 v id (hm v0 hv0)⟩

/-! ### The initial configuration and reachability -/

lemma inv_init (vss : List (List Nat)) : Inv (initConfig vss) := by
  refine ⟨?_, ?_, ?_, ?_, ?_⟩
  · intro b id h
    cases h
  · intro id h
    cases h
  · intro id h
    cases h
  · intro j t hj
    have hj' : (Option.map (fun vs => (⟨vs, .start⟩ : Thread)) vss[j]?) = some t := by
      rw [← List.getElem?_map]
      exact hj
    cases hv : vss[j]? with
    | none =>
      rw [hv] at hj'
      cases hj'
    | some vs =>
      rw [hv] at hj'
      cases hj'
      trivial
  · intro a b t t' id id' hab ha hb hpc hpc'
    have ha' : (Option.map (fun vs => (⟨vs, .start⟩ : Thread)) vss[a]?) = some t := by
      rw [← List.getElem?_map]
      exact ha
    cases hv : vss[a]? with
    | none =>
      rw [hv] at ha'
      cases ha'
    | some vs =>
      rw [hv] at ha'
      cases ha'
      cases hpc

lemma progress_init (vss : List (List Nat)) : Progress vss (initConfig vss) := by
  refine ⟨by simp [initConfig], ?_⟩
  intro j tj vj hj hvj
  have hj' : (Option.map (fun vs => (⟨vs, .start⟩ : Thread)) vss[j]?) = some tj := by
    rw [← List.getElem?_map]
    exact hj
  rw [hvj] at hj'
  cases hj'
  refine ⟨[], by simp, ?_⟩
  intro v hv
  cases hv

lemma inv_progress_reaches (vss : List (List Nat)) (c : Config)
    (h : Reaches (initConfig vss) c) : Inv c ∧ Progress vss c := by
  induction h with
  | refl => exact ⟨inv_init vss, progress_init vss⟩
  | step c' i h ih => exact ⟨inv_stepAt c' i ih.1, progress_stepAt vss c' i ih.1 ih.2⟩

/-- A published slot is never overwritten by any single step: publication is
a one-time transition. -/
lemma slots_stepAt_stable (c : Config) (i b id : Nat)
    (h : c.heap.slots b = some id) : (stepAt c i).heap.slots b = some id := by
  cases hti : c.threads[i]? with
  | none =>
    rw [stepAt_of_none c i hti]
    exact h
  | some t =>
    obtain ⟨todo, pc⟩ := t
    cases todo with
    | nil =>
      rw [stepAt_of_some c i ⟨[], pc⟩ hti, threadStep_nil c.heap pc]
      exact h
    | cons v rest =>
      cases pc with
      | start =>
        cases hs : c.heap.slots (bkt v) with
        | some id' =>
          rw [stepAt_of_some c i ⟨v :: rest, .start⟩ hti,
            threadStep_start_pub c.heap v rest id' hs]
          exact h
        | none =>
          rw [stepAt_of_some c i ⟨v :: rest, .start⟩ hti,
            threadStep_start_alloc c.heap v rest hs]
          exact h
      | casing cid =>
        cases hs : c.heap.slots (bkt v) with
        | none =>
          rw [stepAt_of_some c i ⟨v :: rest, .casing cid⟩ hti,
            threadStep_cas_win c.heap v rest cid hs]
          show upd c.heap.slots (bkt v) (some cid) b = some id
          by_cases hb : b = bkt v
          · subst hb
            rw [h] at hs
            cases hs
          · rw [upd_ne _ _ _ _ hb]
            exact h
        | some winner =>
          rw [stepAt_of_some c i ⟨v :: rest, .casing cid⟩ hti,
            threadStep_cas_lose c.heap v rest cid winner hs]
          exact h
      | fetching fid =>
        rw [stepAt_of_some c i ⟨v :: rest, .fetching fid⟩ hti,
          threadStep_fetch c.heap v rest fid]
        exact h

lemma slots_reaches_stable (c0 c : Config) (h : Reaches c0 c) (b id : Nat)
    (hs : c0.heap.slots b = some id) : c.heap.slots b = some id := by
  induction h with
  | refl => exact hs
  | step c' i h ih => exact slots_stepAt_stable c' i b id ih

/-- C9: Concurrent disjoint-key safety and publish-once allocation, in the
fine-grained interleaving semantics.  For threads concurrently inserting
disjoint key lists from the initial configuration: (1) a bucket slot, once
published, holds the same canonical allocation in every later reachable
configuration — at most one allocation per slot is ever visible; (2) a
speculative allocation that lost the compare-and-swap race and was freed is
never visible in any slot; (3) once every thread has joined (no work left),
every inserted key is present in the heap — no update is lost. -/
theorem concurrent_disjoint_insert_safe (vss : List (List Nat)) (c : Config)
    (hd : List.Pairwise (fun a b => a ≠ b) vss.flatten)
    (hreach : Reaches (initConfig vss) c) :
    (∀ c', Reaches c c' → ∀ b id id', c.heap.slots b = some id →
      c'.heap.slots b = some id' → id' = id) ∧
    (∀ id, id ∈ c.heap.freed → ∀ b, c.heap.slots b ≠ some id) ∧
    ((∀ t ∈ c.threads, t.todo = []) → ∀ vs ∈ vss, ∀ v ∈ vs,
      heapContains c.heap v = true) := by
  obtain ⟨hinv, hprog⟩ := inv_progress_reaches vss c hreach
  refine ⟨?_, hinv.freedUnpub, ?_⟩
  · intro c' hr b id id' hcid hcid'
    have hst := slots_reaches_stable c c' hr b id hcid
    rw [hst] at hcid'
    exact (Option.some.inj hcid').symm
  · intro hdone vs hvs v hv
    obtain ⟨hlen, hcons⟩ := hprog
    obtain ⟨j, hj⟩ := List.mem_iff_getElem?.mp hvs
    have hjlt : j < c.threads.length := by
      rw [hlen]
      exact (List.getElem?_eq_some.mp hj).1
    have htj : c.threads[j]? = some (c.threads.get ⟨j, hjlt⟩) :=
      List.getElem?_eq_getElem hjlt
    have htodo : (c.threads.get ⟨j, hjlt⟩).todo = [] :=
      hdone _ (List.mem_iff_getElem?.mpr ⟨j, htj⟩)
    obtain ⟨consumed, he, hm⟩ := hcons j _ vs htj hj
    rw [htodo, List.append_nil] at he
    exact hm v (he ▸ hv)

/-- A concrete two-thread race: thread 0 inserts key `0` (bucket 0), thread 1
inserts key `64` (bucket 1); the scheduler runs thread 0's three atomic steps
and then thread 1's. -/
def raceDemoFinal : Config :=
  stepAt (stepAt (stepAt (stepAt (stepAt (stepAt
    (initConfig [[0], [64]]) 0) 0) 0) 1) 1) 1

lemma raceDemoReach : Reaches (initConfig [[0], [64]]) raceDemoFinal :=
  Reaches.step _ 1 (Reaches.step _ 1 (Reaches.step _ 1 (Reaches.step _ 0
    (Reaches.step _ 0 (Reaches.step _ 0 Reaches.refl)))))

/-- Witness for C9 on the concrete race: the disjointness and joined
hypotheses are discharged on the two-thread execution, every inserted key is
present afterwards, and the publish-once conclusion is exercised on slot 0
across one further step. -/
theorem concurrent_disjoint_insert_safe_witness :
    List.Pairwise (fun a b => a ≠ b) ([[0], [64]] : List (List Nat)).flatten ∧
    (∀ t ∈ raceDemoFinal.threads, t.todo = []) ∧
    (∀ vs ∈ ([[0], [64]] : List (List Nat)), ∀ v ∈ vs,
      heapContains raceDemoFinal.heap v = true) ∧
    ((0 : Nat) = 0) := by
  have halldone : ∀ t ∈ raceDemoFinal.threads, t.todo = [] := by
    have hth : raceDemoFinal.threads = [⟨[], .start⟩, ⟨[], .start⟩] := rfl
    intro t ht
    rw [hth] at ht
    rcases List.mem_cons.mp ht with rfl | ht
    · rfl
    rcases List.mem_cons.mp ht with rfl | ht
    · rfl
    cases ht
  have h := concurrent_disjoint_insert_safe [[0], [64]] raceDemoFinal (by decide)
    raceDemoReach
  exact ⟨by decide, halldone, h.2.2 halldone,
    h.1 (stepAt raceDemoFinal 0) (Reaches.step raceDemoFinal 0 Reaches.refl) 0 0 0
      rfl rfl⟩

end Conc
